import Mathlib

/-!
Verification of the mixos package-management engine (mix-cli).

The definitions below are a shallow embedding of the Go source in
src/mix-cli/pkg/manager (resolver.go and manager.go).  Strings are modelled
by Lean strings (lists of characters); byte indices of the Go standard
library coincide with character indices on the ASCII inputs the engine
manipulates.  IO effects (filesystem writes and removals, script execution,
database commits) are modelled by explicit action traces and oracle
functions supplied in an environment record.
-/

namespace Mixos

/-! ## Character and list utilities (strings.TrimSpace, strings.Index, …) -/

/-- Whitespace predicate used by strings.TrimSpace (ASCII range of
unicode.IsSpace). -/
def isWS (c : Char) : Bool :=
  c = ' ' || c = '\t' || c = '\n' || c = '\x0b' || c = '\x0c' || c = '\r'

/-- Left trim: drop leading whitespace. -/
def trimL (l : List Char) : List Char := l.dropWhile isWS

/-- Right trim: drop trailing whitespace. -/
def trimR (l : List Char) : List Char := (l.reverse.dropWhile isWS).reverse

/-- strings.TrimSpace on a character list. -/
def trimWS (l : List Char) : List Char := trimR (trimL l)

/-- Does the pattern occur at the head of the list?  (strings.HasPrefix.) -/
def hasPre : List Char → List Char → Bool
  | [], _ => true
  | _ :: _, [] => false
  | p :: ps, c :: cs => p = c && hasPre ps cs

/-- Index of the first occurrence of a pattern (strings.Index), none if the
pattern does not occur. -/
def firstIdxOf (pat : List Char) : List Char → Option Nat
  | [] => if pat = [] then some 0 else none
  | c :: cs =>
    if hasPre pat (c :: cs) then some 0
    else (firstIdxOf pat cs).map (· + 1)

/-- The part of a string before the first occurrence of a separator, the
whole string when the separator does not occur: strings.Split(s, sep)[0]. -/
def splitHead (pat s : List Char) : List Char :=
  match firstIdxOf pat s with
  | some i => s.take i
  | none => s

/-- strings.Split(s, string(sep)) for a one-character separator. -/
def splitOnChar (sep : Char) : List Char → List (List Char)
  | [] => [[]]
  | c :: cs =>
    match splitOnChar sep cs with
    | [] => [[c]]
    | h :: t => if c = sep then [] :: h :: t else (c :: h) :: t

/-! ## Dependency-specifier parsing

parseDependency (resolver.go) trims the specifier and cuts it at the first
operator found when trying, in order, the separators ">=", "<=", "=", ">",
"<".  The name extraction inside Database.GetReverseDependencies
(manager.go) instead applies strings.Split with ">=", then "<=", then "=",
keeps the first field each time, and trims the result; it never looks at a
bare ">" or "<". -/

/-- parseDependency from resolver.go, on character lists. -/
def parseDependencyL (dep : List Char) : List Char :=
  let t := trimWS dep
  match firstIdxOf ['>', '='] t with
  | some i => trimWS (t.take i)
  | none =>
    match firstIdxOf ['<', '='] t with
    | some i => trimWS (t.take i)
    | none =>
      match firstIdxOf ['='] t with
      | some i => trimWS (t.take i)
      | none =>
        match firstIdxOf ['>'] t with
        | some i => trimWS (t.take i)
        | none =>
          match firstIdxOf ['<'] t with
          | some i => trimWS (t.take i)
          | none => t

/-- parseDependency from resolver.go. -/
def parseDependency (dep : String) : String := ⟨parseDependencyL dep.data⟩

/-- The bare-name extraction performed inside
Database.GetReverseDependencies (manager.go): successive strings.Split on
">=", "<=", "=", keeping the first field, then strings.TrimSpace. -/
def revDepNameL (dep : List Char) : List Char :=
  trimWS (splitHead ['='] (splitHead ['<', '='] (splitHead ['>', '='] dep)))

/-- String version of the reverse-dependency name extraction. -/
def revDepName (dep : String) : String := ⟨revDepNameL dep.data⟩

/-! ## compareVersions (manager.go)

compareVersions splits both version strings on ".", scans each segment with
fmt.Sscanf("%d") into a fresh int variable (left at 0 when the scan fails
or the segment is missing), and compares segment by segment up to the
longer length. -/

/-- Numeric value of a digit run. -/
def digitsVal (l : List Char) : Nat :=
  l.foldl (fun a c => a * 10 + (c.toNat - 48)) 0

/-- fmt.Sscanf(s, "%d", &n) into a fresh n: skip leading whitespace, an
optional sign, then a digit run; n keeps its zero value when no digits are
found. -/
def scanInt (s : List Char) : Int :=
  let s1 := s.dropWhile isWS
  match s1 with
  | '-' :: r => if (r.takeWhile Char.isDigit) = [] then 0
                else - (digitsVal (r.takeWhile Char.isDigit) : Int)
  | '+' :: r => if (r.takeWhile Char.isDigit) = [] then 0
                else (digitsVal (r.takeWhile Char.isDigit) : Int)
  | _ => if (s1.takeWhile Char.isDigit) = [] then 0
         else (digitsVal (s1.takeWhile Char.isDigit) : Int)

/-- Tail of the comparison loop once the second list is exhausted: each
remaining left segment is compared against 0. -/
def cmpLeft : List Int → Int
  | [] => 0
  | x :: xs => if x < 0 then -1 else if (0 : Int) < x then 1 else cmpLeft xs

/-- Tail of the comparison loop once the first list is exhausted: 0 is
compared against each remaining right segment. -/
def cmpRight : List Int → Int
  | [] => 0
  | y :: ys => if (0 : Int) < y then -1 else if y < 0 then 1 else cmpRight ys

/-- The per-index comparison loop of compareVersions: when one list runs
out, its segment value stays 0. -/
def cmpSegs : List Int → List Int → Int
  | [], ys => cmpRight ys
  | x :: xs, [] => cmpLeft (x :: xs)
  | x :: xs, y :: ys =>
    if x < y then -1 else if y < x then 1 else cmpSegs xs ys

/-- Segment values of a version string. -/
def segsOf (v : String) : List Int := (splitOnChar '.' v.data).map scanInt

/-- compareVersions from manager.go. -/
def compareVersions (v1 v2 : String) : Int := cmpSegs (segsOf v1) (segsOf v2)

/-- Spec-side comparison: pad the shorter segment list with trailing zeros
and compare the two equal-length lists pointwise, first difference wins. -/
def padZeros (l : List Int) (n : Nat) : List Int :=
  l ++ List.replicate (n - l.length) 0

/-- First-difference comparison of paired segments. -/
def pairCmp : List (Int × Int) → Int
  | [] => 0
  | (a, b) :: r => if a < b then -1 else if b < a then 1 else pairCmp r

/-- Spec-side compareVersions: numeric, per-segment, missing trailing
segments treated as 0. -/
def specCompareVersions (v1 v2 : String) : Int :=
  let a := segsOf v1
  let b := segsOf v2
  let n := max a.length b.length
  pairCmp ((padZeros a n).zip (padZeros b n))

/-! ## Archive extraction (Manager.installFiles, manager.go)

A tar entry is modelled by its header name, its type flag, and, for
symbolic links, the link target.  Entry contents and modes do not affect
which paths are written or returned.  Filesystem writes are modelled as an
action list; the Go function additionally returns the list of regular-file
and symlink target paths it wrote. -/

/-- Tar header type flags distinguished by installFiles; every other flag
falls through the switch and is ignored. -/
inductive TarType
  | dir
  | reg
  | symlink
  | other
deriving DecidableEq, Repr

/-- A tar entry as seen by installFiles. -/
structure TarEntry where
  name : String
  typ : TarType
  linkname : String := ""
deriving DecidableEq, Repr

/-- Filesystem writes performed by installFiles. -/
inductive FsWrite
  | mkdirAll (path : String)
  | writeFile (path : String)
  | makeLink (target path : String)
deriving DecidableEq, Repr

/-- path of the parent directory (filepath.Dir) of an absolute path. -/
def dirOf (p : String) : String :=
  let q := (p.data.reverse.dropWhile (fun c => c ≠ '/')).reverse
  match q with
  | [] => "."
  | ['/'] => "/"
  | _ => ⟨q.dropLast⟩

/-- Strip the files/ prefix, then the ./files/ prefix, from an entry name
(two successive strings.TrimPrefix in manager.go). -/
def stripFilesPre (n : String) : String :=
  let n1 := if hasPre "files/".data n.data then ⟨n.data.drop 6⟩ else n
  if hasPre "./files/".data n1.data then ⟨n1.data.drop 8⟩ else n1

/-- The skip test of installFiles: the metadata entry and entries under
scripts/ are not extracted. -/
def skipsEntry (name : String) : Bool :=
  name = "metadata.json" || hasPre "scripts/".data name.data

/-- installFiles from manager.go: iterate the archive entries, skip
metadata and scripts/ entries, strip the files/ or ./files/ prefix, skip
empty and "." names, write the entry at "/" ++ stripped name, collect the
regular-file and symlink paths written. -/
def installFilesGo : List TarEntry → List FsWrite × List String
  | [] => ([], [])
  | e :: rest =>
    if skipsEntry e.name then installFilesGo rest
    else
      let n := stripFilesPre e.name
      if n = "" || n = "." then installFilesGo rest
      else
        let target := "/" ++ n
        match e.typ with
        | .dir =>
          let (w, l) := installFilesGo rest
          (.mkdirAll target :: w, l)
        | .reg =>
          let (w, l) := installFilesGo rest
          (.mkdirAll (dirOf target) :: .writeFile target :: w, target :: l)
        | .symlink =>
          let (w, l) := installFilesGo rest
          (.makeLink e.linkname target :: w, target :: l)
        | .other => installFilesGo rest

/-- Spec-side description of the returned list: exactly the regular-file
and symlink entries that survive the skip rules, at "/" ++ stripped name,
in archive order. -/
def specExtractedList (es : List TarEntry) : List String :=
  es.filterMap fun e =>
    if skipsEntry e.name then none
    else
      let n := stripFilesPre e.name
      if n = "" || n = "." then none
      else match e.typ with
        | .reg => some ("/" ++ n)
        | .symlink => some ("/" ++ n)
        | _ => none

/-- The filesystem writes an entry contributes according to the spec: a
directory entry is created (but not listed), a regular file gets its parent
directory and its content written, a symlink is created at the target. -/
def specWritesFor (e : TarEntry) : List FsWrite :=
  if skipsEntry e.name then []
  else
    let n := stripFilesPre e.name
    if n = "" || n = "." then []
    else match e.typ with
      | .dir => [.mkdirAll ("/" ++ n)]
      | .reg => [.mkdirAll (dirOf ("/" ++ n)), .writeFile ("/" ++ n)]
      | .symlink => [.makeLink e.linkname ("/" ++ n)]
      | .other => []

/-! ## Dependency resolver (resolver.go)

The resolver consults the database only through IsInstalled and
GetDependencies.  A catalog models those two queries: the packages table as
an association list from name to dependency-specifier list (the primary key
makes lookups first-match) and the installed ledger as a name list. -/

/-- The catalog as seen by the resolver. -/
structure Catalog where
  pkgs : List (String × List String)
  installed : List String
deriving DecidableEq, Repr

/-- Database.GetDependencies: the dependency list of the catalog row, or an
error (none) when the name is not in the packages table. -/
def getDeps (cat : Catalog) (name : String) : Option (List String) :=
  (cat.pkgs.find? (fun p => p.1 = name)).map (·.2)

/-- Database.IsInstalled. -/
def isInst (cat : Catalog) (name : String) : Bool :=
  cat.installed.contains name

/-- Resolver state: the resolved set, the recursion-stack set, and the
output order. -/
structure RState where
  resolved : List String
  unresolved : List String
  order : List String
deriving DecidableEq, Repr

/-- Map-style insertion: adding a name already present changes nothing. -/
def addSet (l : List String) (x : String) : List String :=
  if x ∈ l then l else x :: l

/-- The dependency loop of Resolver.resolve: for each specifier, extract
the bare name; installed dependencies are marked resolved and skipped,
the rest are resolved recursively through rec. -/
def resolveDeps (cat : Catalog)
    (rec : String → RState → Except String RState) :
    List String → RState → Except String RState
  | [], st => .ok st
  | d :: ds, st =>
    let depName := parseDependency d
    if isInst cat depName then
      resolveDeps cat rec ds { st with resolved := addSet st.resolved depName }
    else
      match rec depName st with
      | .error e => .error e
      | .ok st1 => resolveDeps cat rec ds st1

/-- Resolver.resolve: cycle check against the recursion stack, early return
for resolved names, unknown packages treated as dependency-free leaves,
depth-first resolution of the dependencies, then append to the order.  The
recursion is paid for with fuel; the wrapper below supplies more fuel than
the recursion depth can reach, and the theorems about successful runs hold
for every fuel value. -/
def resolveGo (cat : Catalog) : Nat → String → RState → Except String RState
  | 0, _, _ => .error "resolver recursion limit exceeded"
  | fuel + 1, pkg, st =>
    if pkg ∈ st.unresolved then
      .error ("circular dependency detected: " ++ pkg)
    else if pkg ∈ st.resolved then .ok st
    else
      let st1 : RState := { st with unresolved := pkg :: st.unresolved }
      match getDeps cat pkg with
      | none =>
        .ok { resolved := addSet st1.resolved pkg,
              unresolved := st1.unresolved.erase pkg,
              order := st1.order ++ [pkg] }
      | some deps =>
        match resolveDeps cat (resolveGo cat fuel) deps st1 with
        | .error e => .error e
        | .ok st2 =>
          .ok { resolved := addSet st2.resolved pkg,
                unresolved := st2.unresolved.erase pkg,
                order := st2.order ++ [pkg] }

/-- The loop of Resolver.Resolve over the requested names. -/
def resolveAll (cat : Catalog) (fuel : Nat) :
    List String → RState → Except String RState
  | [], st => .ok st
  | p :: ps, st =>
    if p ∈ st.resolved then resolveAll cat fuel ps st
    else
      match resolveGo cat fuel p st with
      | .error e => .error e
      | .ok st1 => resolveAll cat fuel ps st1

/-- Resolver.Resolve: reset state, pre-mark installed requested names as
resolved, resolve each requested name, and return the order filtered down
to the names not yet installed. -/
def Resolve (cat : Catalog) (packages : List String) :
    Except String (List String) :=
  let fuel :=
    packages.length + cat.pkgs.length +
      (cat.pkgs.map (fun p => p.2.length)).sum + 1
  let st0 : RState :=
    { resolved := packages.filter (fun p => isInst cat p),
      unresolved := [], order := [] }
  match resolveAll cat fuel packages st0 with
  | .error e => .error e
  | .ok st => .ok (st.order.filter (fun p => !(isInst cat p)))

/-- The bare dependency names of a package: the specifiers of its catalog
row run through parseDependency; a package without a catalog row has no
dependency edges. -/
def depNames (cat : Catalog) (p : String) : List String :=
  match getDeps cat p with
  | some ds => ds.map parseDependency
  | none => []

/-- One dependency edge: a is among the parsed dependency names of b. -/
def Edge (cat : Catalog) (b a : String) : Prop := a ∈ depNames cat b

/-- One dependency edge whose target is not installed. -/
def EdgeNI (cat : Catalog) (b a : String) : Prop :=
  a ∈ depNames cat b ∧ isInst cat a = false

/-- a is a (transitive) dependency of b. -/
def DependsOn (cat : Catalog) (b a : String) : Prop :=
  Relation.TransGen (Edge cat) b a

/-- a is a (transitive) dependency of b along a chain in which a and every
intermediate package is not installed. -/
def DependsOnNI (cat : Catalog) (b a : String) : Prop :=
  Relation.TransGen (EdgeNI cat) b a

/-- Position of the first occurrence of a name in a list. -/
def idxOf (x : String) : List String → Nat
  | [] => 0
  | y :: ys => if y = x then 0 else idxOf x ys + 1

/-- a appears strictly before b in l (both occur; the first occurrence of a
is left of the first occurrence of b). -/
def Before (l : List String) (a b : String) : Prop :=
  a ∈ l ∧ b ∈ l ∧ idxOf a l < idxOf b l

instance {l : List String} {a b : String} : Decidable (Before l a b) := by
  unfold Before; infer_instance

/-! ## Database (manager.go, sqlite-backed)

The packages table (primary key name), the installed ledger (primary key
name; install_time does not influence any operation) and the files table
(primary key path) are modelled as lists; INSERT OR REPLACE is replacement
of the conflicting row. -/

/-- A row of the packages table. -/
structure PkgRow where
  name : String
  version : String
  description : String := ""
  dependencies : List String := []
  files : List String := []
  checksum : String := ""
  size : Int := 0
deriving DecidableEq, Repr

/-- A row of the installed ledger. -/
structure InstRow where
  name : String
  version : String
  files : List String
deriving DecidableEq, Repr

/-- The three tables. -/
structure DB where
  packages : List PkgRow
  installed : List InstRow
  fileRows : List (String × String)
deriving DecidableEq, Repr

/-- The PackageInfo record populated by the database getters. -/
structure PackageInfo where
  name : String
  version : String
  description : String
  dependencies : List String
  files : List String
  checksum : String
  size : Int
  installedFlag : Bool
  preRemove : String
  postRemove : String
deriving DecidableEq, Repr

/-- Package metadata decoded from metadata.json of an archive. -/
structure PackageMetadata where
  name : String := ""
  version : String := ""
  description : String := ""
  dependencies : List String := []
  files : List String := []
  checksum : String := ""
  preInstall : String := ""
  postInstall : String := ""
  preRemove : String := ""
  postRemove : String := ""
deriving DecidableEq, Repr

/-- Database.GetPackage: the catalog row for a name. -/
def GetPackage (db : DB) (name : String) : Option PkgRow :=
  db.packages.find? (fun r => r.name = name)

/-- Database.IsInstalled: the ledger holds a row for the name. -/
def IsInstalledDB (db : DB) (name : String) : Bool :=
  db.installed.any (fun r => r.name = name)

/-- Database.GetInstalledFiles: the files column of the ledger row. -/
def GetInstalledFiles (db : DB) (name : String) : Option (List String) :=
  (db.installed.find? (fun r => r.name = name)).map (fun r => r.files)

/-- Database.RecordInstallation: inside one transaction, INSERT OR REPLACE
the ledger row (name, version, files) and a files row for every path.  No
script text is stored anywhere. -/
def RecordInstallation (db : DB) (name version : String)
    (files : List String) : DB :=
  { db with
    installed :=
      (db.installed.filter (fun r => r.name ≠ name)) ++ [⟨name, version, files⟩],
    fileRows :=
      (db.fileRows.filter (fun r => r.1 ∉ files)) ++
        files.map (fun f => (f, name)) }

/-- Database.RemoveInstallation: inside one transaction, delete the files
rows owned by the name and the ledger row. -/
def RemoveInstallation (db : DB) (name : String) : DB :=
  { db with
    installed := db.installed.filter (fun r => r.name ≠ name),
    fileRows := db.fileRows.filter (fun r => r.2 ≠ name) }

/-- Database.GetInstalledPackage: the ledger row left-joined with the
catalog row.  The SELECT list is name, version, description, dependencies,
files, checksum, size — it contains no pre_remove or post_remove column
(the installed table has none), so the script fields of the result are the
Go zero value "". -/
def GetInstalledPackage (db : DB) (name : String) : Option PackageInfo :=
  (db.installed.find? (fun r => r.name = name)).map fun i =>
    let p := GetPackage db name
    { name := i.name
      version := i.version
      description := (p.map (fun r => r.description)).getD ""
      dependencies := (p.map (fun r => r.dependencies)).getD []
      files := i.files
      checksum := (p.map (fun r => r.checksum)).getD ""
      size := (p.map (fun r => r.size)).getD 0
      installedFlag := true
      preRemove := ""
      postRemove := "" }

/-! ## Transaction engine (Manager.Install / Manager.Remove, manager.go)

IO steps are modelled by oracles in an environment record and by an action
trace: script execution, filesystem removal outcomes, the download result
and the SHA-256 digest of the archive file are oracle data; the engine
logic over them is the translation of the Go control flow. -/

/-- Outcome of one os.Remove call. -/
inductive RemRes
  | ok
  | notExist
  | errOther
deriving DecidableEq, Repr

/-- Externally visible actions of an engine operation, in order. -/
inductive Action
  | script (stage body : String)
  | fsWrite (w : FsWrite)
  | removeTry (path : String)
  | rmdirTry (path : String)
  | delCache
  | dbRecord (name version : String) (files : List String)
  | dbRemove (name : String)
deriving DecidableEq, Repr

/-- The body of one iteration of Manager.removeFiles: try os.Remove; on an
error other than not-exist, opportunistically try to remove the parent
directory, ignoring the outcome. -/
def removeStep (fsRemove : String → RemRes) (path : String) : List Action :=
  match fsRemove path with
  | .errOther => [.removeTry path, .rmdirTry (dirOf path)]
  | _ => [.removeTry path]

/-- Manager.removeFiles: walk the file list in reverse order attempting
deletions, swallow every failure, and return nil. -/
def removeFilesGo (fsRemove : String → RemRes) (files : List String) :
    List Action × Option String :=
  ((files.reverse.map (removeStep fsRemove)).flatten, none)

/-- Environment of a Remove run. -/
structure RemoveEnv where
  db : DB
  scriptOk : String → String → Bool
  fsRemove : String → RemRes

/-- Result of a Remove run: outcome, final database, action trace. -/
structure OpResult where
  res : Except String Unit
  db : DB
  trace : List Action

/-- The script text of a hook: info.PreRemove / info.PostRemove when the
lookup produced a record, "" when it returned nil. -/
def hookBody (info : Option PackageInfo) (sel : PackageInfo → String) :
    String :=
  match info with
  | some i => sel i
  | none => ""

/-- Manager.Remove: installed check, installed-file lookup, metadata lookup
for scripts (error ignored), pre-remove hook, removeFiles, post-remove
hook, ledger deletion.  The purge flag is accepted and never read. -/
def RemoveGo (env : RemoveEnv) (name : String) (_purge : Bool) : OpResult :=
  if IsInstalledDB env.db name = false then
    ⟨.error ("package " ++ name ++ " is not installed"), env.db, []⟩
  else
    match GetInstalledFiles env.db name with
    | none => ⟨.error "failed to get installed files", env.db, []⟩
    | some files =>
      let info := GetInstalledPackage env.db name
      let pre := hookBody info (fun i => i.preRemove)
      let preTrace : List Action :=
        if pre ≠ "" then [.script "pre-remove" pre] else []
      if pre ≠ "" ∧ env.scriptOk pre "pre-remove" = false then
        ⟨.error "pre-remove script failed", env.db, preTrace⟩
      else
        let rm := removeFilesGo env.fsRemove files
        match rm.2 with
        | some _ => ⟨.error "failed to remove files", env.db, preTrace ++ rm.1⟩
        | none =>
          let post := hookBody info (fun i => i.postRemove)
          let postTrace : List Action :=
            if post ≠ "" then [.script "post-remove" post] else []
          if post ≠ "" ∧ env.scriptOk post "post-remove" = false then
            ⟨.error "post-remove script failed", env.db,
              preTrace ++ rm.1 ++ postTrace⟩
          else
            ⟨.ok (), RemoveInstallation env.db name,
              preTrace ++ rm.1 ++ postTrace ++ [.dbRemove name]⟩

/-- The archive file: its entry stream and the result of decoding its
metadata.json document. -/
structure ArchiveFile where
  entries : List TarEntry
  metadata : Option PackageMetadata

/-- Environment of an Install run.  hashHex is the hex-encoded SHA-256 of
the archive file, supplied as oracle data. -/
structure InstallEnv where
  db : DB
  cachePresent : Bool
  downloadOk : Bool
  archive : ArchiveFile
  hashHex : String
  scriptOk : String → String → Bool
  fsRemove : String → RemRes

/-- Result of an Install run: outcome, final database, whether the cached
archive file is still present, action trace. -/
structure InstResult where
  res : Except String Unit
  db : DB
  cacheHas : Bool
  trace : List Action

/-- Manager.Install: already-installed check, catalog lookup, download (a
cached archive is reused), checksum verification with cache eviction on
mismatch, metadata extraction, pre-install hook, file installation,
post-install hook with best-effort rollback of the written files on
failure, and finally the ledger record. -/
def InstallGo (env : InstallEnv) (name : String) : InstResult :=
  if IsInstalledDB env.db name = true then
    ⟨.error ("package " ++ name ++ " is already installed"),
      env.db, env.cachePresent, []⟩
  else
    match GetPackage env.db name with
    | none =>
      ⟨.error ("package " ++ name ++ " not found in database"),
        env.db, env.cachePresent, []⟩
    | some info =>
      if env.cachePresent = false ∧ env.downloadOk = false then
        ⟨.error "failed to download package", env.db, false, []⟩
      else
        if info.checksum ≠ "" ∧ env.hashHex ≠ info.checksum then
          ⟨.error ("checksum verification failed: checksum mismatch: expected "
              ++ info.checksum ++ ", got " ++ env.hashHex),
            env.db, false, [.delCache]⟩
        else
          match env.archive.metadata with
          | none => ⟨.error "failed to extract package", env.db, true, []⟩
          | some md =>
            let preTrace : List Action :=
              if md.preInstall ≠ "" then [.script "pre-install" md.preInstall]
              else []
            if md.preInstall ≠ "" ∧
                env.scriptOk md.preInstall "pre-install" = false then
              ⟨.error "pre-install script failed", env.db, true, preTrace⟩
            else
              let ext := installFilesGo env.archive.entries
              let wTrace := ext.1.map Action.fsWrite
              let postTrace : List Action :=
                if md.postInstall ≠ "" then
                  [.script "post-install" md.postInstall]
                else []
              if md.postInstall ≠ "" ∧
                  env.scriptOk md.postInstall "post-install" = false then
                let rb := removeFilesGo env.fsRemove ext.2
                ⟨.error "post-install script failed", env.db, true,
                  preTrace ++ wTrace ++ postTrace ++ rb.1⟩
              else
                ⟨.ok (),
                  RecordInstallation env.db name info.version ext.2, true,
                  preTrace ++ wTrace ++ postTrace ++
                    [.dbRecord name info.version ext.2]⟩

/-! ## Concrete data for claim C3: a package declaring remove hooks -/

/-- Archive metadata declaring both remove hooks. -/
def hookedMeta : PackageMetadata :=
  { name := "hooked", version := "1.0",
    preRemove := "echo pre-remove", postRemove := "echo post-remove" }

/-- Install environment for the hooked package: catalog row present,
archive cached, one regular file under files/. -/
def hookedEnv : InstallEnv :=
  { db := ⟨[⟨"hooked", "1.0", "", [], [], "", 0⟩], [], []⟩,
    cachePresent := true, downloadOk := true,
    archive := ⟨[⟨"metadata.json", .reg, ""⟩,
      ⟨"files/usr/bin/hooked", .reg, ""⟩], some hookedMeta⟩,
    hashHex := "", scriptOk := fun _ _ => false,
    fsRemove := fun _ => .errOther }

/-! ## Engine helper lemmas -/

theorem getInstalledPackage_scripts_empty (db : DB) (n : String)
    (i : PackageInfo) (h : GetInstalledPackage db n = some i) :
    i.preRemove = "" ∧ i.postRemove = "" := by
  simp only [GetInstalledPackage, Option.map_eq_some'] at h
  obtain ⟨r, _, rfl⟩ := h
  exact ⟨rfl, rfl⟩

theorem removeFilesGo_attempts (fs : String → RemRes) (files : List String)
    (f : String) (hf : f ∈ files) :
    Action.removeTry f ∈ (removeFilesGo fs files).1 := by
  simp only [removeFilesGo, List.mem_flatten]
  refine ⟨removeStep fs f, List.mem_map_of_mem _ (List.mem_reverse.mpr hf), ?_⟩
  unfold removeStep
  split <;> simp

theorem removeFilesGo_shape (fs : String → RemRes) (files : List String)
    (a : Action) (ha : a ∈ (removeFilesGo fs files).1) :
    (∃ p, a = .removeTry p) ∨ (∃ p, a = .rmdirTry p) := by
  simp only [removeFilesGo, List.mem_flatten, List.mem_map] at ha
  obtain ⟨l, ⟨p, _, rfl⟩, hal⟩ := ha
  unfold removeStep at hal
  split at hal
  · rcases List.mem_cons.mp hal with h | h
    · exact Or.inl ⟨p, h⟩
    · exact Or.inr ⟨dirOf p, by simpa using h⟩
  · exact Or.inl ⟨p, by simpa using hal⟩

/-! ## Claim C10: removeFiles swallows every deletion failure -/

/-- Claim C10: removeFiles returns nil on every file list and every
pattern of filesystem outcomes, and consequently Remove of an installed
package with a readable file list always reaches the ledger deletion —
its result does not depend on filesystem errors. -/
theorem c10_removeFiles_never_fails :
    (∀ (fs : String → RemRes) (files : List String),
        (removeFilesGo fs files).2 = none) ∧
    (∀ (env : RemoveEnv) (name : String) (purge : Bool)
        (files : List String),
        IsInstalledDB env.db name = true →
        GetInstalledFiles env.db name = some files →
        (RemoveGo env name purge).res = .ok () ∧
        (RemoveGo env name purge).db = RemoveInstallation env.db name ∧
        Action.dbRemove name ∈ (RemoveGo env name purge).trace) := by
  constructor
  · intro fs files; rfl
  · intro env name purge files hinst hfiles
    have hpre : hookBody (GetInstalledPackage env.db name)
        (fun i => i.preRemove) = "" := by
      unfold hookBody
      cases h : GetInstalledPackage env.db name with
      | none => rfl
      | some i => exact (getInstalledPackage_scripts_empty _ _ _ h).1
    have hpost : hookBody (GetInstalledPackage env.db name)
        (fun i => i.postRemove) = "" := by
      unfold hookBody
      cases h : GetInstalledPackage env.db name with
      | none => rfl
      | some i => exact (getInstalledPackage_scripts_empty _ _ _ h).2
    unfold RemoveGo
    rw [hinst, hfiles]
    simp [hpre, hpost, removeFilesGo]

/-- Witness for C10: a one-package ledger whose every filesystem removal
fails; Remove still succeeds and deletes the ledger row. -/
theorem c10_removeFiles_never_fails_witness :
    (RemoveGo
        ⟨⟨[], [⟨"tool", "1.0", ["/usr/bin/tool"]⟩], [("/usr/bin/tool", "tool")]⟩,
          fun _ _ => false, fun _ => .errOther⟩
        "tool" false).res = .ok () :=
  (c10_removeFiles_never_fails.2
    ⟨⟨[], [⟨"tool", "1.0", ["/usr/bin/tool"]⟩], [("/usr/bin/tool", "tool")]⟩,
      fun _ _ => false, fun _ => .errOther⟩
    "tool" false ["/usr/bin/tool"] rfl rfl).1

/-! ## Claim C3: the remove lifecycle hooks are dead code -/

theorem removeGo_no_scripts (env : RemoveEnv) (name : String) (purge : Bool)
    (stage body : String) :
    Action.script stage body ∉ (RemoveGo env name purge).trace := by
  have hpre : hookBody (GetInstalledPackage env.db name)
      (fun i => i.preRemove) = "" := by
    unfold hookBody
    cases h : GetInstalledPackage env.db name with
    | none => rfl
    | some i => exact (getInstalledPackage_scripts_empty _ _ _ h).1
  have hpost : hookBody (GetInstalledPackage env.db name)
      (fun i => i.postRemove) = "" := by
    unfold hookBody
    cases h : GetInstalledPackage env.db name with
    | none => rfl
    | some i => exact (getInstalledPackage_scripts_empty _ _ _ h).2
  have hrm2 : ∀ (fs : String → RemRes) (fl : List String),
      (removeFilesGo fs fl).2 = none := fun _ _ => rfl
  unfold RemoveGo
  split
  · simp
  · split
    · simp
    · intro hmem
      simp only [hpre, hpost, hrm2, ne_eq, not_true_eq_false, false_and,
        if_false, List.nil_append, List.append_nil, List.mem_append,
        List.mem_singleton] at hmem
      rcases hmem with h | h
      · rcases removeFilesGo_shape _ _ _ h with ⟨p, hp⟩ | ⟨p, hp⟩ <;>
          exact Action.noConfusion hp
      · exact Action.noConfusion h

/-- Claim C3 is refuted by the code: the ledger records only name, version
and files, and the installed-package lookup selects no script column, so
the script fields of every looked-up record are empty and the remove hooks
never run.  Concretely: installing the hooked package (whose metadata
declares both remove hooks) and then removing it produces a remove trace
with no script action at all — the trace is exactly the file-removal
attempts followed by the ledger deletion — even though the hooks were
declared; and in general no Remove trace ever contains a script action. -/
theorem c3_remove_hooks_never_run :
    hookedMeta.preRemove = "echo pre-remove" ∧
      hookedMeta.postRemove = "echo post-remove" ∧
      (InstallGo hookedEnv "hooked").res = .ok () ∧
      GetInstalledPackage (InstallGo hookedEnv "hooked").db "hooked" =
        some ⟨"hooked", "1.0", "", [], ["/usr/bin/hooked"], "", 0,
          true, "", ""⟩ ∧
      RemoveGo ⟨(InstallGo hookedEnv "hooked").db, fun _ _ => false,
          fun _ => .errOther⟩ "hooked" false =
        ⟨.ok (),
          RemoveInstallation (InstallGo hookedEnv "hooked").db "hooked",
          [.removeTry "/usr/bin/hooked", .rmdirTry "/usr/bin",
            .dbRemove "hooked"]⟩ ∧
      (∀ (env : RemoveEnv) (name : String) (purge : Bool)
          (stage body : String),
        Action.script stage body ∉ (RemoveGo env name purge).trace) :=
  ⟨rfl, rfl, rfl, rfl, rfl, removeGo_no_scripts⟩

/-! ## Claim C4: checksum mismatch evicts the cache and leaves the ledger
unchanged -/

/-- Claim C4: when the catalog record declares a non-empty checksum and
the SHA-256 of the cached archive differs from it, Install deletes the
cached archive, fails with the checksum-mismatch error, and leaves the
database unchanged — the package is still not installed. -/
theorem c4_checksum_mismatch :
    ∀ (env : InstallEnv) (name : String) (info : PkgRow),
      IsInstalledDB env.db name = false →
      GetPackage env.db name = some info →
      env.cachePresent = true →
      info.checksum ≠ "" →
      env.hashHex ≠ info.checksum →
      (InstallGo env name).res =
          .error ("checksum verification failed: checksum mismatch: expected "
            ++ info.checksum ++ ", got " ++ env.hashHex) ∧
        (InstallGo env name).cacheHas = false ∧
        (InstallGo env name).db = env.db ∧
        IsInstalledDB (InstallGo env name).db name = false := by
  intro env name info hinst hpkg hcache hck hne
  unfold InstallGo
  rw [hinst, hpkg]
  simp [hcache, hck, hne, hinst]

/-- Witness for C4 at a concrete environment. -/
theorem c4_checksum_mismatch_witness :
    (InstallGo
        ⟨⟨[⟨"pkg", "1.0", "", [], [], "aaaa", 0⟩], [], []⟩, true, true,
          ⟨[], none⟩, "bbbb", fun _ _ => true, fun _ => .ok⟩
        "pkg").res =
      .error ("checksum verification failed: checksum mismatch: expected "
        ++ "aaaa" ++ ", got " ++ "bbbb") :=
  (c4_checksum_mismatch
    ⟨⟨[⟨"pkg", "1.0", "", [], [], "aaaa", 0⟩], [], []⟩, true, true,
      ⟨[], none⟩, "bbbb", fun _ _ => true, fun _ => .ok⟩
    "pkg" ⟨"pkg", "1.0", "", [], [], "aaaa", 0⟩
    rfl rfl rfl (by decide) (by decide)).1

/-! ## Claim C5: post-install failure rolls back the written files and
records nothing -/

/-- Claim C5: when the post-install script fails, every file written in
the transaction gets a best-effort deletion attempt before the
script-failure error is returned, the database is unchanged, and no
ledger record is written. -/
theorem c5_postinstall_rollback :
    ∀ (env : InstallEnv) (name : String) (info : PkgRow)
      (md : PackageMetadata),
      IsInstalledDB env.db name = false →
      GetPackage env.db name = some info →
      env.cachePresent = true →
      (info.checksum ≠ "" → env.hashHex = info.checksum) →
      env.archive.metadata = some md →
      (md.preInstall ≠ "" → env.scriptOk md.preInstall "pre-install" = true) →
      md.postInstall ≠ "" →
      env.scriptOk md.postInstall "post-install" = false →
      (InstallGo env name).res = .error "post-install script failed" ∧
        (InstallGo env name).db = env.db ∧
        IsInstalledDB (InstallGo env name).db name = false ∧
        (∀ f ∈ (installFilesGo env.archive.entries).2,
          Action.removeTry f ∈ (InstallGo env name).trace) ∧
        (∀ n v fs, Action.dbRecord n v fs ∉ (InstallGo env name).trace) := by
  intro env name info md hinst hpkg hcache hck hmd hpre hpost hfail
  have hcknot : ¬(info.checksum ≠ "" ∧ env.hashHex ≠ info.checksum) := by
    rintro ⟨h1, h2⟩; exact h2 (hck h1)
  have hprenot : ¬(md.preInstall ≠ "" ∧
      env.scriptOk md.preInstall "pre-install" = false) := by
    rintro ⟨h1, h2⟩; rw [hpre h1] at h2; cases h2
  have key : InstallGo env name =
      ⟨.error "post-install script failed", env.db, true,
        (if md.preInstall ≠ "" then [Action.script "pre-install" md.preInstall]
          else []) ++
        ((installFilesGo env.archive.entries).1.map Action.fsWrite ++
          ([Action.script "post-install" md.postInstall] ++
            (removeFilesGo env.fsRemove
              (installFilesGo env.archive.entries).2).1))⟩ := by
    unfold InstallGo
    rw [hinst, hpkg, hmd]
    simp [hcache, hcknot, hprenot, hpost, hfail]
  rw [key]
  refine ⟨rfl, rfl, by simp [hinst], ?_, ?_⟩
  · intro f hf
    simp only [List.mem_append]
    right; right; right
    exact removeFilesGo_attempts env.fsRemove _ f hf
  · intro n v fs hmem
    simp only [List.mem_append] at hmem
    rcases hmem with h | h | h | h
    · split at h <;> simp_all
    · simp only [List.mem_map] at h; obtain ⟨w, _, hw⟩ := h; cases hw
    · simp at h
    · rcases removeFilesGo_shape _ _ _ h with ⟨p, hp⟩ | ⟨p, hp⟩ <;> cases hp

/-- Witness for C5 at a concrete environment: one regular file is written,
then the failing post-install script forces its removal attempt. -/
theorem c5_postinstall_rollback_witness :
    (InstallGo
        ⟨⟨[⟨"pkg", "1.0", "", [], [], "", 0⟩], [], []⟩, true, true,
          ⟨[⟨"files/usr/bin/tool", .reg, ""⟩],
            some { postInstall := "exit 1" }⟩,
          "", fun _ _ => false, fun _ => .ok⟩
        "pkg").res = .error "post-install script failed" ∧
      Action.removeTry "/usr/bin/tool" ∈
        (InstallGo
          ⟨⟨[⟨"pkg", "1.0", "", [], [], "", 0⟩], [], []⟩, true, true,
            ⟨[⟨"files/usr/bin/tool", .reg, ""⟩],
              some { postInstall := "exit 1" }⟩,
            "", fun _ _ => false, fun _ => .ok⟩
          "pkg").trace := by
  have h := c5_postinstall_rollback
    ⟨⟨[⟨"pkg", "1.0", "", [], [], "", 0⟩], [], []⟩, true, true,
      ⟨[⟨"files/usr/bin/tool", .reg, ""⟩],
        some { postInstall := "exit 1" }⟩,
      "", fun _ _ => false, fun _ => .ok⟩
    "pkg" ⟨"pkg", "1.0", "", [], [], "", 0⟩ { postInstall := "exit 1" }
    rfl rfl rfl (fun h => absurd rfl h) rfl
    (fun h => absurd rfl h) (by decide) rfl
  exact ⟨h.1, h.2.2.2.1 "/usr/bin/tool" (by decide)⟩

/-! ## Claim C7: the two specifier parsers -/

/-- A bare package name contains no comparison-operator character. -/
def okName (l : List Char) : Prop := ∀ c ∈ l, c ≠ '>' ∧ c ≠ '<' ∧ c ≠ '='

instance {l : List Char} : Decidable (okName l) := by
  unfold okName; infer_instance

theorem mem_of_mem_trimL {c : Char} {l : List Char} (h : c ∈ trimL l) :
    c ∈ l :=
  List.Sublist.mem h (List.dropWhile_sublist isWS)

theorem mem_of_mem_trimR {c : Char} {l : List Char} (h : c ∈ trimR l) :
    c ∈ l := by
  unfold trimR at h
  rw [List.mem_reverse] at h
  exact List.mem_reverse.mp (List.Sublist.mem h (List.dropWhile_sublist isWS))

theorem mem_of_mem_trimWS {c : Char} {l : List Char} (h : c ∈ trimWS l) :
    c ∈ l :=
  mem_of_mem_trimL (mem_of_mem_trimR h)

theorem dropWhile_ws_idem (l : List Char) :
    (l.dropWhile isWS).dropWhile isWS = l.dropWhile isWS := by
  induction l with
  | nil => rfl
  | cons c cs ih =>
    by_cases hc : isWS c
    · simp [List.dropWhile_cons, hc, ih]
    · simp [List.dropWhile_cons, hc]

theorem trimWS_trimL (l : List Char) : trimWS (trimL l) = trimWS l := by
  unfold trimWS trimL
  rw [dropWhile_ws_idem]

theorem dropWhile_ws_append_cons (n : List Char) (c : Char) (r : List Char)
    (hc : isWS c = false) :
    (n ++ c :: r).dropWhile isWS = n.dropWhile isWS ++ c :: r := by
  induction n with
  | nil => simp [List.dropWhile_cons, hc]
  | cons d ds ih =>
    by_cases hd : isWS d
    · simp [List.dropWhile_cons, hd, ih]
    · simp [List.dropWhile_cons, hd]

theorem trimR_append_cons (x : List Char) (c : Char) (v : List Char)
    (hc : isWS c = false) :
    trimR (x ++ c :: v) = x ++ c :: trimR v := by
  unfold trimR
  rw [show x ++ c :: v = x ++ (c :: v) from rfl, List.reverse_append,
    show (c :: v).reverse = v.reverse ++ [c] from List.reverse_cons c v,
    List.append_assoc, show [c] ++ x.reverse = c :: x.reverse from rfl,
    dropWhile_ws_append_cons _ _ _ hc, List.reverse_append]
  simp

theorem trimWS_append_cons (n : List Char) (c : Char) (v : List Char)
    (hc : isWS c = false) :
    trimWS (n ++ c :: v) = trimL n ++ c :: trimR v := by
  unfold trimWS
  rw [show trimL (n ++ c :: v) = trimL n ++ c :: v from
    dropWhile_ws_append_cons n c v hc]
  exact trimR_append_cons _ _ _ hc

theorem trimWS_append_cons2 (n : List Char) (c d : Char) (v : List Char)
    (hc : isWS c = false) (hd : isWS d = false) :
    trimWS (n ++ c :: d :: v) = trimL n ++ c :: d :: trimR v := by
  rw [trimWS_append_cons n c (d :: v) hc]
  rw [show trimR (d :: v) = [] ++ d :: trimR v from trimR_append_cons [] d v hd]
  rfl

theorem hasPre_self_append (p t : List Char) : hasPre p (p ++ t) = true := by
  induction p with
  | nil => rfl
  | cons c cs ih => simp [hasPre, ih]

theorem firstIdxOf_cons_none (a : Char) (pat s : List Char)
    (h : ∀ c ∈ s, c ≠ a) : firstIdxOf (a :: pat) s = none := by
  induction s with
  | nil => rfl
  | cons c cs ih =>
    have hac : (a = c) = False := by
      simp only [eq_iff_iff, iff_false]
      exact fun he => (h c (List.mem_cons_self c cs)) he.symm
    simp [firstIdxOf, hasPre, hac,
      ih (fun x hx => h x (List.mem_cons_of_mem c hx))]

theorem firstIdxOf_boundary (a : Char) (pat s t : List Char)
    (h : ∀ c ∈ s, c ≠ a) :
    firstIdxOf (a :: pat) (s ++ a :: (pat ++ t)) = some s.length := by
  induction s with
  | nil =>
    have : hasPre (a :: pat) (a :: (pat ++ t)) = true := by
      simpa [hasPre] using hasPre_self_append pat t
    simp [firstIdxOf, this]
  | cons c cs ih =>
    have hac : (a = c) = False := by
      simp only [eq_iff_iff, iff_false]
      exact fun he => (h c (List.mem_cons_self c cs)) he.symm
    simp [firstIdxOf, hasPre, hac,
      ih (fun x hx => h x (List.mem_cons_of_mem c hx))]

theorem splitHead_of_none (pat s : List Char)
    (h : firstIdxOf pat s = none) : splitHead pat s = s := by
  unfold splitHead
  rw [h]

theorem splitHead_boundary (a : Char) (pat s t : List Char)
    (h : ∀ c ∈ s, c ≠ a) :
    splitHead (a :: pat) (s ++ a :: (pat ++ t)) = s := by
  unfold splitHead
  rw [firstIdxOf_boundary a pat s t h]
  rw [show s ++ a :: (pat ++ t) = s ++ (a :: (pat ++ t)) from rfl]
  exact List.take_left s _

theorem parse_bare (n : List Char) (h : okName n) :
    parseDependencyL n = trimWS n := by
  have h1 : firstIdxOf ['>', '='] (trimWS n) = none :=
    firstIdxOf_cons_none _ _ _ (fun c hc => (h c (mem_of_mem_trimWS hc)).1)
  have h2 : firstIdxOf ['<', '='] (trimWS n) = none :=
    firstIdxOf_cons_none _ _ _ (fun c hc => (h c (mem_of_mem_trimWS hc)).2.1)
  have h3 : firstIdxOf ['='] (trimWS n) = none :=
    firstIdxOf_cons_none _ _ _ (fun c hc => (h c (mem_of_mem_trimWS hc)).2.2)
  have h4 : firstIdxOf ['>'] (trimWS n) = none :=
    firstIdxOf_cons_none _ _ _ (fun c hc => (h c (mem_of_mem_trimWS hc)).1)
  have h5 : firstIdxOf ['<'] (trimWS n) = none :=
    firstIdxOf_cons_none _ _ _ (fun c hc => (h c (mem_of_mem_trimWS hc)).2.1)
  simp only [parseDependencyL, h1, h2, h3, h4, h5]

theorem rev_bare (n : List Char) (h : okName n) : revDepNameL n = trimWS n := by
  unfold revDepNameL
  rw [splitHead_of_none _ _
      (firstIdxOf_cons_none _ _ _ (fun c hc => (h c hc).1)),
    splitHead_of_none _ _
      (firstIdxOf_cons_none _ _ _ (fun c hc => (h c hc).2.1)),
    splitHead_of_none _ _
      (firstIdxOf_cons_none _ _ _ (fun c hc => (h c hc).2.2))]

theorem parse_ge (n v : List Char) (hn : okName n) (_hv : okName v) :
    parseDependencyL (n ++ '>' :: '=' :: v) = trimWS n := by
  have ht : trimWS (n ++ '>' :: '=' :: v) = trimL n ++ '>' :: '=' :: trimR v :=
    trimWS_append_cons2 n '>' '=' v (by decide) (by decide)
  have hfi : firstIdxOf ['>', '='] (trimWS (n ++ '>' :: '=' :: v)) =
      some (trimL n).length := by
    rw [ht]
    exact firstIdxOf_boundary '>' ['='] (trimL n) (trimR v)
      (fun c hc => (hn c (mem_of_mem_trimL hc)).1)
  have htake : (trimWS (n ++ '>' :: '=' :: v)).take (trimL n).length =
      trimL n := by
    rw [ht]; exact List.take_left _ _
  simp only [parseDependencyL, hfi]
  rw [htake, trimWS_trimL]

theorem parse_le (n v : List Char) (hn : okName n) (hv : okName v) :
    parseDependencyL (n ++ '<' :: '=' :: v) = trimWS n := by
  have ht : trimWS (n ++ '<' :: '=' :: v) = trimL n ++ '<' :: '=' :: trimR v :=
    trimWS_append_cons2 n '<' '=' v (by decide) (by decide)
  have hnogt : ∀ c ∈ trimWS (n ++ '<' :: '=' :: v), c ≠ '>' := by
    rw [ht]
    intro c hc
    rcases List.mem_append.mp hc with h | h
    · exact (hn c (mem_of_mem_trimL h)).1
    · rcases List.mem_cons.mp h with rfl | h2
      · decide
      · rcases List.mem_cons.mp h2 with rfl | h3
        · decide
        · exact (hv c (mem_of_mem_trimR h3)).1
  have h1 : firstIdxOf ['>', '='] (trimWS (n ++ '<' :: '=' :: v)) = none :=
    firstIdxOf_cons_none _ _ _ hnogt
  have h2 : firstIdxOf ['<', '='] (trimWS (n ++ '<' :: '=' :: v)) =
      some (trimL n).length := by
    rw [ht]
    exact firstIdxOf_boundary '<' ['='] (trimL n) (trimR v)
      (fun c hc => (hn c (mem_of_mem_trimL hc)).2.1)
  have htake : (trimWS (n ++ '<' :: '=' :: v)).take (trimL n).length =
      trimL n := by
    rw [ht]; exact List.take_left _ _
  simp only [parseDependencyL, h1, h2]
  rw [htake, trimWS_trimL]

theorem parse_eq (n v : List Char) (hn : okName n) (hv : okName v) :
    parseDependencyL (n ++ '=' :: v) = trimWS n := by
  have ht : trimWS (n ++ '=' :: v) = trimL n ++ '=' :: trimR v :=
    trimWS_append_cons n '=' v (by decide)
  have hmemc : ∀ c ∈ trimWS (n ++ '=' :: v),
      c ≠ '>' ∧ c ≠ '<' := by
    rw [ht]
    intro c hc
    rcases List.mem_append.mp hc with h | h
    · exact ⟨(hn c (mem_of_mem_trimL h)).1, (hn c (mem_of_mem_trimL h)).2.1⟩
    · rcases List.mem_cons.mp h with rfl | h2
      · exact ⟨by decide, by decide⟩
      · exact ⟨(hv c (mem_of_mem_trimR h2)).1, (hv c (mem_of_mem_trimR h2)).2.1⟩
  have h1 : firstIdxOf ['>', '='] (trimWS (n ++ '=' :: v)) = none :=
    firstIdxOf_cons_none _ _ _ (fun c hc => (hmemc c hc).1)
  have h2 : firstIdxOf ['<', '='] (trimWS (n ++ '=' :: v)) = none :=
    firstIdxOf_cons_none _ _ _ (fun c hc => (hmemc c hc).2)
  have h3 : firstIdxOf ['='] (trimWS (n ++ '=' :: v)) =
      some (trimL n).length := by
    rw [ht]
    exact firstIdxOf_boundary '=' [] (trimL n) (trimR v)
      (fun c hc => (hn c (mem_of_mem_trimL hc)).2.2)
  have htake : (trimWS (n ++ '=' :: v)).take (trimL n).length = trimL n := by
    rw [ht]; exact List.take_left _ _
  simp only [parseDependencyL, h1, h2, h3]
  rw [htake, trimWS_trimL]

theorem rev_ge (n v : List Char) (hn : okName n) (_hv : okName v) :
    revDepNameL (n ++ '>' :: '=' :: v) = trimWS n := by
  unfold revDepNameL
  rw [show splitHead ['>', '='] (n ++ '>' :: '=' :: v) = n from
      splitHead_boundary '>' ['='] n v (fun c hc => (hn c hc).1),
    splitHead_of_none _ _
      (firstIdxOf_cons_none _ _ _ (fun c hc => (hn c hc).2.1)),
    splitHead_of_none _ _
      (firstIdxOf_cons_none _ _ _ (fun c hc => (hn c hc).2.2))]

theorem rev_le (n v : List Char) (hn : okName n) (hv : okName v) :
    revDepNameL (n ++ '<' :: '=' :: v) = trimWS n := by
  have hnogt : ∀ c ∈ n ++ '<' :: '=' :: v, c ≠ '>' := by
    intro c hc
    rcases List.mem_append.mp hc with h | h
    · exact (hn c h).1
    · rcases List.mem_cons.mp h with rfl | h2
      · decide
      · rcases List.mem_cons.mp h2 with rfl | h3
        · decide
        · exact (hv c h3).1
  unfold revDepNameL
  rw [splitHead_of_none _ _ (firstIdxOf_cons_none _ _ _ hnogt),
    show splitHead ['<', '='] (n ++ '<' :: '=' :: v) = n from
      splitHead_boundary '<' ['='] n v (fun c hc => (hn c hc).2.1),
    splitHead_of_none _ _
      (firstIdxOf_cons_none _ _ _ (fun c hc => (hn c hc).2.2))]

theorem rev_eq (n v : List Char) (hn : okName n) (hv : okName v) :
    revDepNameL (n ++ '=' :: v) = trimWS n := by
  have hmemc : ∀ c ∈ n ++ '=' :: v, c ≠ '>' ∧ c ≠ '<' := by
    intro c hc
    rcases List.mem_append.mp hc with h | h
    · exact ⟨(hn c h).1, (hn c h).2.1⟩
    · rcases List.mem_cons.mp h with rfl | h2
      · exact ⟨by decide, by decide⟩
      · exact ⟨(hv c h2).1, (hv c h2).2.1⟩
  unfold revDepNameL
  rw [splitHead_of_none _ _
      (firstIdxOf_cons_none _ _ _ (fun c hc => (hmemc c hc).1)),
    splitHead_of_none _ _
      (firstIdxOf_cons_none _ _ _ (fun c hc => (hmemc c hc).2)),
    show splitHead ['='] (n ++ '=' :: v) = n from
      splitHead_boundary '=' [] n v (fun c hc => (hn c hc).2.2)]

/-- Counterexample for C7: on the specifier pkg>1.0 the resolver parser
strips the bare ">" suffix and the reverse-dependency extraction does not,
so the two parsers are not extensionally equal. -/
theorem c7_counterexample_bare_gt :
    parseDependency "pkg>1.0" = "pkg" ∧
      revDepName "pkg>1.0" = "pkg>1.0" ∧
      parseDependency "pkg>1.0" ≠ revDepName "pkg>1.0" :=
  ⟨by decide, by decide, by decide⟩

/-- Claim C7 (amended): the two extractors agree — both produce the
trimmed bare name — on every specifier that is a bare name or uses one of
the operators ">=", "<=", "=" around a name and version free of operator
characters; they differ on specifiers using a bare ">" or "<", which
ReverseDependencies does not strip. -/
theorem c7_parsers_agree_on_eq_ops :
    ∀ n v : String, okName n.data → okName v.data →
      parseDependency n = revDepName n ∧
      parseDependency (n ++ ">=" ++ v) = revDepName (n ++ ">=" ++ v) ∧
      parseDependency (n ++ "<=" ++ v) = revDepName (n ++ "<=" ++ v) ∧
      parseDependency (n ++ "=" ++ v) = revDepName (n ++ "=" ++ v) := by
  intro n v hn hv
  refine ⟨?_, ?_, ?_, ?_⟩
  · unfold parseDependency revDepName
    rw [parse_bare n.data hn, rev_bare n.data hn]
  · unfold parseDependency revDepName
    rw [show (n ++ ">=" ++ v).data = n.data ++ '>' :: '=' :: v.data from by
      rw [String.data_append, String.data_append]; simp]
    rw [parse_ge n.data v.data hn hv, rev_ge n.data v.data hn hv]
  · unfold parseDependency revDepName
    rw [show (n ++ "<=" ++ v).data = n.data ++ '<' :: '=' :: v.data from by
      rw [String.data_append, String.data_append]; simp]
    rw [parse_le n.data v.data hn hv, rev_le n.data v.data hn hv]
  · unfold parseDependency revDepName
    rw [show (n ++ "=" ++ v).data = n.data ++ '=' :: v.data from by
      rw [String.data_append, String.data_append]; simp]
    rw [parse_eq n.data v.data hn hv, rev_eq n.data v.data hn hv]

/-- Witness for the amended C7 at the specifier pkg>=1.0. -/
theorem c7_parsers_agree_on_eq_ops_witness :
    parseDependency "pkg>=1.0" = revDepName "pkg>=1.0" := by
  have h := (c7_parsers_agree_on_eq_ops "pkg" "1.0"
    (by decide) (by decide)).2.1
  rwa [show ("pkg" ++ ">=" ++ "1.0" : String) = "pkg>=1.0" from rfl] at h

/-! ## Concrete catalogs used by the resolver claims -/

/-- The four-package chain level0 <- level1 <- level2 <- level3. -/
def chainCat : Catalog :=
  ⟨[("level0", []), ("level1", ["level0"]), ("level2", ["level1"]),
    ("level3", ["level2"])], []⟩

/-- app depends on base; base is already installed. -/
def appCat : Catalog := ⟨[("base", []), ("app", ["base"])], ["base"]⟩

/-- The two-cycle a <-> b with nothing installed. -/
def cycCat : Catalog := ⟨[("a", ["b"]), ("b", ["a"])], []⟩

/-- b depends on c, c depends on a; the intermediate c is installed. -/
def midInstCat : Catalog :=
  ⟨[("b", ["c"]), ("c", ["a"]), ("a", [])], ["c"]⟩

/-- The two-cycle a <-> b with b installed. -/
def cycInstCat : Catalog := ⟨[("a", ["b"]), ("b", ["a"])], ["b"]⟩

/-! ## Resolver invariants (for claims C1 and C2) -/

instance {cat : Catalog} {b a : String} : Decidable (Edge cat b a) := by
  unfold Edge; infer_instance

instance {cat : Catalog} {b a : String} : Decidable (EdgeNI cat b a) := by
  unfold EdgeNI; infer_instance

theorem idxOf_append_of_mem {x : String} {l : List String} (r : List String)
    (h : x ∈ l) : idxOf x (l ++ r) = idxOf x l := by
  induction l with
  | nil => cases h
  | cons y ys ih =>
    by_cases hxy : y = x
    · simp [idxOf, hxy]
    · rcases List.mem_cons.mp h with rfl | h2
      · exact absurd rfl hxy
      · simp [idxOf, hxy, ih h2]

theorem idxOf_append_self {x : String} {l : List String} (h : x ∉ l) :
    idxOf x (l ++ [x]) = l.length := by
  induction l with
  | nil => simp [idxOf]
  | cons y ys ih =>
    have hyx : ¬(y = x) := fun he => h (he ▸ List.mem_cons_self y ys)
    simp [idxOf, hyx, ih (fun hm => h (List.mem_cons_of_mem y hm))]

theorem idxOf_lt_length {x : String} {l : List String} (h : x ∈ l) :
    idxOf x l < l.length := by
  induction l with
  | nil => cases h
  | cons y ys ih =>
    by_cases hxy : y = x
    · simp [idxOf, hxy]
    · rcases List.mem_cons.mp h with rfl | h2
      · exact absurd rfl hxy
      · simp only [idxOf, hxy, if_false, List.length_cons]
        exact Nat.succ_lt_succ (ih h2)

theorem mem_addSet {l : List String} {x y : String} :
    y ∈ addSet l x ↔ y = x ∨ y ∈ l := by
  unfold addSet
  split
  · constructor
    · exact Or.inr
    · rintro (rfl | h)
      · assumption
      · exact h
  · exact List.mem_cons

/-- The run-time invariant of a resolver state: the order contains only
resolved, not-installed names, every resolved name is installed or in the
order, and the order is dependency-closed — every not-installed dependency
of a member precedes it. -/
structure Inv (cat : Catalog) (st : RState) : Prop where
  resOrd : ∀ q ∈ st.order, q ∈ st.resolved
  ordNI : ∀ q ∈ st.order, isInst cat q = false
  resInstOrOrd : ∀ q ∈ st.resolved, isInst cat q = true ∨ q ∈ st.order
  closed : ∀ q ∈ st.order, ∀ d ∈ depNames cat q, isInst cat d = false →
    d ∈ st.order ∧ idxOf d st.order < idxOf q st.order

theorem inv_addSet_installed (cat : Catalog) (st : RState) (x : String)
    (hx : isInst cat x = true) (h : Inv cat st) :
    Inv cat { st with resolved := addSet st.resolved x } where
  resOrd q hq := mem_addSet.mpr (Or.inr (h.resOrd q hq))
  ordNI := h.ordNI
  resInstOrOrd q hq := by
    rcases mem_addSet.mp hq with rfl | h2
    · exact Or.inl hx
    · exact h.resInstOrOrd q h2
  closed := h.closed

theorem inv_append_step (cat : Catalog) (st2 : RState) (p : String)
    (U : List String) (hInv : Inv cat st2) (hNI : isInst cat p = false)
    (hdeps : ∀ d ∈ depNames cat p, isInst cat d = false → d ∈ st2.order) :
    Inv cat
      { resolved := addSet st2.resolved p, unresolved := U,
        order := st2.order ++ [p] } where
  resOrd q hq := by
    rcases List.mem_append.mp hq with h2 | h2
    · exact mem_addSet.mpr (Or.inr (hInv.resOrd q h2))
    · rcases List.mem_singleton.mp h2 with rfl
      exact mem_addSet.mpr (Or.inl rfl)
  ordNI q hq := by
    rcases List.mem_append.mp hq with h2 | h2
    · exact hInv.ordNI q h2
    · rcases List.mem_singleton.mp h2 with rfl
      exact hNI
  resInstOrOrd q hq := by
    rcases mem_addSet.mp hq with rfl | h2
    · exact Or.inr (List.mem_append_right _ (List.mem_singleton.mpr rfl))
    · rcases hInv.resInstOrOrd q h2 with h3 | h3
      · exact Or.inl h3
      · exact Or.inr (List.mem_append_left _ h3)
  closed q hq d hd hdNI := by
    have inOld : q ∈ st2.order →
        d ∈ st2.order ++ [p] ∧
          idxOf d (st2.order ++ [p]) < idxOf q (st2.order ++ [p]) := by
      intro hq2
      obtain ⟨hdo, hlt⟩ := hInv.closed q hq2 d hd hdNI
      refine ⟨List.mem_append_left _ hdo, ?_⟩
      rw [idxOf_append_of_mem _ hdo, idxOf_append_of_mem _ hq2]
      exact hlt
    rcases List.mem_append.mp hq with h2 | h2
    · exact inOld h2
    · rcases List.mem_singleton.mp h2 with rfl
      by_cases hpo : q ∈ st2.order
      · exact inOld hpo
      · have hdo := hdeps d hd hdNI
        refine ⟨List.mem_append_left _ hdo, ?_⟩
        rw [idxOf_append_of_mem _ hdo, idxOf_append_self hpo]
        exact idxOf_lt_length hdo

theorem resolveDeps_spec (cat : Catalog)
    (rec : String → RState → Except String RState)
    (hrec : ∀ p st st1, rec p st = .ok st1 → isInst cat p = false →
      (Inv cat st → Inv cat st1) ∧
        (∀ q ∈ st.resolved, q ∈ st1.resolved) ∧ p ∈ st1.resolved) :
    ∀ (ds : List String) (st st' : RState),
      resolveDeps cat rec ds st = .ok st' →
      (Inv cat st → Inv cat st') ∧
        (∀ q ∈ st.resolved, q ∈ st'.resolved) ∧
        (∀ d ∈ ds, parseDependency d ∈ st'.resolved) := by
  intro ds
  induction ds with
  | nil =>
    intro st st' h
    injection h with he
    subst he
    exact ⟨id, fun q hq => hq, fun d hd => absurd hd (List.not_mem_nil d)⟩
  | cons d rest ih =>
    intro st st' h
    rw [resolveDeps] at h
    by_cases hinst : isInst cat (parseDependency d)
    · rw [if_pos hinst] at h
      obtain ⟨hInv, hMono, hAll⟩ := ih _ _ h
      refine ⟨?_, ?_, ?_⟩
      · intro hst
        exact hInv (inv_addSet_installed cat st (parseDependency d) hinst hst)
      · intro q hq
        exact hMono q (mem_addSet.mpr (Or.inr hq))
      · intro e he
        rcases List.mem_cons.mp he with rfl | h2
        · exact hMono _ (mem_addSet.mpr (Or.inl rfl))
        · exact hAll e h2
    · rw [if_neg hinst] at h
      cases hr : rec (parseDependency d) st with
      | error e => rw [hr] at h; cases h
      | ok st1 =>
        rw [hr] at h
        have hNI : isInst cat (parseDependency d) = false := by
          revert hinst; cases isInst cat (parseDependency d) <;> simp
        obtain ⟨rInv, rMono, rMem⟩ := hrec _ _ _ hr hNI
        obtain ⟨iInv, iMono, iAll⟩ := ih _ _ h
        refine ⟨fun hst => iInv (rInv hst), fun q hq => iMono q (rMono q hq), ?_⟩
        intro e he
        rcases List.mem_cons.mp he with rfl | h2
        · exact iMono _ rMem
        · exact iAll e h2

theorem resolveGo_spec (cat : Catalog) :
    ∀ (fuel : Nat) (p : String) (st st' : RState),
      resolveGo cat fuel p st = .ok st' → isInst cat p = false →
      (Inv cat st → Inv cat st') ∧
        (∀ q ∈ st.resolved, q ∈ st'.resolved) ∧ p ∈ st'.resolved := by
  intro fuel
  induction fuel with
  | zero => intro p st st' h; cases h
  | succ fuel ih =>
    intro p st st' h hpNI
    rw [resolveGo] at h
    by_cases hunres : p ∈ st.unresolved
    · rw [if_pos hunres] at h; cases h
    · rw [if_neg hunres] at h
      by_cases hres : p ∈ st.resolved
      · rw [if_pos hres] at h
        injection h with he
        subst he
        exact ⟨id, fun q hq => hq, hres⟩
      · rw [if_neg hres] at h
        cases hgd : getDeps cat p with
        | none =>
          simp only [hgd] at h
          injection h with he
          subst he
          have hdeps : ∀ d ∈ depNames cat p, isInst cat d = false →
              d ∈ st.order := by
            intro d hd
            rw [depNames, hgd] at hd
            cases hd
          refine ⟨?_, ?_, ?_⟩
          · intro hst
            exact inv_append_step cat st p _ hst hpNI hdeps
          · intro q hq
            exact mem_addSet.mpr (Or.inr hq)
          · exact mem_addSet.mpr (Or.inl rfl)
        | some deps =>
          simp only [hgd] at h
          cases hrd : resolveDeps cat (resolveGo cat fuel) deps
              { st with unresolved := p :: st.unresolved } with
          | error e => rw [hrd] at h; cases h
          | ok st2 =>
            rw [hrd] at h
            injection h with he
            subst he
            obtain ⟨dInv, dMono, dAll⟩ :=
              resolveDeps_spec cat (resolveGo cat fuel)
                (fun p' s s' hok hni => ih p' s s' hok hni) deps
                { st with unresolved := p :: st.unresolved } st2 hrd
            have hdepsRes : ∀ d ∈ depNames cat p, isInst cat d = false →
                d ∈ st2.resolved := by
              intro d hd _
              rw [depNames, hgd] at hd
              obtain ⟨spec, hspec, rfl⟩ := List.mem_map.mp hd
              exact dAll spec hspec
            refine ⟨?_, ?_, ?_⟩
            · intro hst
              have hI2 : Inv cat st2 :=
                dInv ⟨hst.resOrd, hst.ordNI, hst.resInstOrOrd, hst.closed⟩
              refine inv_append_step cat st2 p _ hI2 hpNI ?_
              intro d hd hdNI
              rcases hI2.resInstOrOrd d (hdepsRes d hd hdNI) with h3 | h3
              · rw [hdNI] at h3; cases h3
              · exact h3
            · intro q hq
              exact mem_addSet.mpr (Or.inr (dMono q hq))
            · exact mem_addSet.mpr (Or.inl rfl)

theorem resolveAll_spec (cat : Catalog) (fuel : Nat) :
    ∀ (ps : List String) (st st' : RState),
      resolveAll cat fuel ps st = .ok st' →
      (∀ q ∈ ps, isInst cat q = true → q ∈ st.resolved) →
      (Inv cat st → Inv cat st') ∧
        (∀ q ∈ st.resolved, q ∈ st'.resolved) ∧
        (∀ q ∈ ps, q ∈ st'.resolved) := by
  intro ps
  induction ps with
  | nil =>
    intro st st' h _
    injection h with he
    subst he
    exact ⟨id, fun q hq => hq, fun q hq => absurd hq (List.not_mem_nil q)⟩
  | cons p rest ih =>
    intro st st' h hin
    rw [resolveAll] at h
    by_cases hres : p ∈ st.resolved
    · rw [if_pos hres] at h
      obtain ⟨iInv, iMono, iAll⟩ := ih st st' h
        (fun q hq hq2 => hin q (List.mem_cons_of_mem p hq) hq2)
      refine ⟨iInv, iMono, ?_⟩
      intro q hq
      rcases List.mem_cons.mp hq with rfl | h2
      · exact iMono q hres
      · exact iAll q h2
    · rw [if_neg hres] at h
      cases hrg : resolveGo cat fuel p st with
      | error e => rw [hrg] at h; cases h
      | ok st1 =>
        rw [hrg] at h
        have hpNI : isInst cat p = false := by
          cases hb : isInst cat p
          · rfl
          · exact absurd (hin p (List.mem_cons_self p rest) hb) hres
        obtain ⟨gInv, gMono, gMem⟩ := resolveGo_spec cat fuel p st st1 hrg hpNI
        obtain ⟨iInv, iMono, iAll⟩ := ih st1 st' h
          (fun q hq hq2 => gMono q (hin q (List.mem_cons_of_mem p hq) hq2))
        refine ⟨fun hst => iInv (gInv hst), fun q hq => iMono q (gMono q hq), ?_⟩
        intro q hq
        rcases List.mem_cons.mp hq with rfl | h2
        · exact iMono q gMem
        · exact iAll q h2

theorem Resolve_ok (cat : Catalog) (req out : List String)
    (h : Resolve cat req = .ok out) :
    ∃ st, Inv cat st ∧ out = st.order ∧ ∀ q ∈ req, q ∈ st.resolved := by
  simp only [Resolve] at h
  cases hra : resolveAll cat
      (req.length + cat.pkgs.length +
        (cat.pkgs.map (fun p => p.2.length)).sum + 1) req
      { resolved := req.filter (fun p => isInst cat p),
        unresolved := [], order := [] } with
  | error e => rw [hra] at h; cases h
  | ok st =>
    rw [hra] at h
    injection h with he
    have hin : ∀ q ∈ req, isInst cat q = true →
        q ∈ (⟨req.filter (fun p => isInst cat p), [], []⟩ : RState).resolved :=
      fun q hq hq2 => List.mem_filter.mpr ⟨hq, hq2⟩
    have hInv0 : Inv cat ⟨req.filter (fun p => isInst cat p), [], []⟩ :=
      { resOrd := fun q hq => absurd hq (List.not_mem_nil q)
        ordNI := fun q hq => absurd hq (List.not_mem_nil q)
        resInstOrOrd := fun q hq => Or.inl (List.mem_filter.mp hq).2
        closed := fun q hq => absurd hq (List.not_mem_nil q) }
    obtain ⟨aInv, _, aAll⟩ := resolveAll_spec cat _ req _ st hra hin
    have hI := aInv hInv0
    have hfe : st.order.filter (fun p => !(isInst cat p)) = st.order := by
      apply List.filter_eq_self.mpr
      intro a ha
      rw [hI.ordNI a ha]
      rfl
    refine ⟨st, hI, ?_, aAll⟩
    rw [← he, hfe]

theorem inv_depends_before (cat : Catalog) (st : RState) (hI : Inv cat st)
    (B A : String) (h : DependsOnNI cat B A) (hB : B ∈ st.order) :
    A ∈ st.order ∧ idxOf A st.order < idxOf B st.order := by
  induction h with
  | single hBA => exact hI.closed B hB _ hBA.1 hBA.2
  | tail _ hedge ih =>
    obtain ⟨hc, hlt⟩ := ih
    obtain ⟨hA, hlt2⟩ := hI.closed _ hc _ hedge.1 hedge.2
    exact ⟨hA, Nat.lt_trans hlt2 hlt⟩

/-! ## Claim C1: dependencies precede dependents in the install order -/

/-- Counterexample for C1 as stated: in the catalog b -> c -> a with the
intermediate c already installed, a is a transitive dependency of b,
neither a nor b is installed, Resolve(["b"]) succeeds, yet a does not
appear before b in the returned list (a is not in the list at all, because
the resolver never looks behind the installed c). -/
theorem c1_counterexample_installed_intermediate :
    Resolve midInstCat ["b"] = .ok ["b"] ∧
      DependsOn midInstCat "b" "a" ∧
      isInst midInstCat "a" = false ∧
      isInst midInstCat "b" = false ∧
      ¬ Before ["b"] "a" "b" :=
  ⟨rfl,
    Relation.TransGen.head (by decide : Edge midInstCat "b" "c")
      (Relation.TransGen.single (by decide : Edge midInstCat "c" "a")),
    rfl, rfl, by decide⟩

/-- Claim C1 (amended): for every catalog and request on which Resolve
succeeds, if A is a (transitive) dependency of B along a chain in which A
and every intermediate package is not installed, B is not installed, and B
appears in the returned install list, then A appears strictly before B; in
particular, for the chain level0 <- level1 <- level2 <- level3,
Resolve(["level3"]) returns exactly [level0, level1, level2, level3]. -/
theorem c1_dependency_before_dependent :
    (∀ (cat : Catalog) (req out : List String) (A B : String),
        Resolve cat req = .ok out →
        DependsOnNI cat B A →
        isInst cat B = false →
        B ∈ out →
        Before out A B) ∧
      Resolve chainCat ["level3"] =
        .ok ["level0", "level1", "level2", "level3"] := by
  constructor
  · intro cat req out A B hok hdep _hBNI hBmem
    obtain ⟨st, hI, houtEq, -⟩ := Resolve_ok cat req out hok
    subst houtEq
    obtain ⟨hA, hlt⟩ := inv_depends_before cat st hI B A hdep hBmem
    exact ⟨hA, hBmem, hlt⟩
  · rfl

/-- Witness for the amended C1 on the four-package chain. -/
theorem c1_dependency_before_dependent_witness :
    Before ["level0", "level1", "level2", "level3"] "level0" "level3" :=
  c1_dependency_before_dependent.1 chainCat ["level3"]
    ["level0", "level1", "level2", "level3"] "level0" "level3"
    c1_dependency_before_dependent.2
    (Relation.TransGen.head (by decide : EdgeNI chainCat "level3" "level2")
      (Relation.TransGen.head (by decide : EdgeNI chainCat "level2" "level1")
        (Relation.TransGen.single
          (by decide : EdgeNI chainCat "level1" "level0"))))
    rfl (by decide)

/-! ## Claim C2: cycles make Resolve fail -/

/-- Counterexample for C2 as stated: the catalog a -> b -> a contains a
dependency cycle, yet with b already installed Resolve(["a"]) succeeds and
returns an order, because the resolver cuts the cycle at the installed
node. -/
theorem c2_counterexample_cycle_with_installed_node :
    DependsOn cycInstCat "a" "a" ∧
      Resolve cycInstCat ["a"] = .ok ["a"] :=
  ⟨Relation.TransGen.head (by decide : Edge cycInstCat "a" "b")
      (Relation.TransGen.single (by decide : Edge cycInstCat "b" "a")),
    rfl⟩

/-- Claim C2 (amended): whenever some requested, not-installed name
reaches — through a chain of not-installed dependencies, or directly — a
package lying on a dependency cycle of not-installed packages, Resolve
never returns an order; on the two-cycle a <-> b with nothing installed,
Resolve(["a"]) returns the circular-dependency error for a. -/
theorem c2_cycle_is_error :
    (∀ (cat : Catalog) (req : List String) (r c : String)
        (out : List String),
        r ∈ req → isInst cat r = false →
        (r = c ∨ DependsOnNI cat r c) →
        DependsOnNI cat c c →
        Resolve cat req ≠ .ok out) ∧
      Resolve cycCat ["a"] = .error "circular dependency detected: a" := by
  constructor
  · intro cat req r c out hr hrNI hreach hcyc hok
    obtain ⟨st, hI, houtEq, hreq⟩ := Resolve_ok cat req out hok
    have hrRes := hreq r hr
    have hrOrd : r ∈ st.order := by
      rcases hI.resInstOrOrd r hrRes with h2 | h2
      · rw [hrNI] at h2; cases h2
      · exact h2
    have hcOrd : c ∈ st.order := by
      rcases hreach with rfl | hpath
      · exact hrOrd
      · exact (inv_depends_before cat st hI r c hpath hrOrd).1
    obtain ⟨-, hlt⟩ := inv_depends_before cat st hI c c hcyc hcOrd
    exact absurd hlt (lt_irrefl _)
  · rfl

/-- Witness for the amended C2 on the two-cycle a <-> b. -/
theorem c2_cycle_is_error_witness :
    Resolve cycCat ["a"] ≠ .ok [] :=
  c2_cycle_is_error.1 cycCat ["a"] "a" "a" [] (by decide) rfl (Or.inl rfl)
    (Relation.TransGen.head (by decide : EdgeNI cycCat "a" "b")
      (Relation.TransGen.single (by decide : EdgeNI cycCat "b" "a")))

/-! ## Claim C8: installed packages are excluded from the plan -/

/-- Claim C8: a package that is already installed — requested directly or
reached as a dependency — never appears in the list Resolve returns, and
requesting app whose sole dependency base is already installed returns
exactly the list with app alone. -/
theorem c8_installed_excluded :
    (∀ (cat : Catalog) (req out : List String) (p : String),
        Resolve cat req = .ok out → isInst cat p = true → p ∉ out) ∧
      Resolve appCat ["app"] = .ok ["app"] := by
  constructor
  · intro cat req out p hok hinst hmem
    simp only [Resolve] at hok
    split at hok
    · cases hok
    · injection hok with h
      subst h
      rcases List.mem_filter.mp hmem with ⟨-, hp⟩
      rw [hinst] at hp
      simp at hp
  · rfl

/-- Witness for C8: base is installed in appCat and indeed absent from the
plan for app. -/
theorem c8_installed_excluded_witness : "base" ∉ ["app"] :=
  c8_installed_excluded.1 appCat ["app"] ["app"] "base"
    c8_installed_excluded.2 rfl

/-! ## Claim C9: compareVersions is numeric, segment-wise, zero-padded -/

theorem padZeros_self (l : List Int) : padZeros l l.length = l := by
  simp [padZeros]

theorem padZeros_cons (x : Int) (l : List Int) (m : Nat) :
    padZeros (x :: l) (m + 1) = x :: padZeros l m := by
  simp [padZeros, Nat.succ_sub_succ]

theorem cmpRight_eq_pad (ys : List Int) :
    cmpRight ys = pairCmp ((List.replicate ys.length 0).zip ys) := by
  induction ys with
  | nil => rfl
  | cons y ys ih =>
    simp only [List.length_cons, List.replicate_succ, List.zip_cons_cons,
      cmpRight, pairCmp, ih, List.zip]

theorem cmpLeft_eq_pad (xs : List Int) :
    cmpLeft xs = pairCmp (xs.zip (List.replicate xs.length 0)) := by
  induction xs with
  | nil => rfl
  | cons x xs ih =>
    simp only [List.length_cons, List.replicate_succ, List.zip_cons_cons,
      cmpLeft, pairCmp, ih, List.zip]

theorem cmpSegs_eq_pad (xs ys : List Int) :
    cmpSegs xs ys =
      pairCmp ((padZeros xs (max xs.length ys.length)).zip
        (padZeros ys (max xs.length ys.length))) := by
  induction xs generalizing ys with
  | nil =>
    simp only [cmpSegs, List.length_nil, Nat.zero_max, padZeros_self]
    simpa [padZeros] using cmpRight_eq_pad ys
  | cons x xs ih =>
    cases ys with
    | nil =>
      have hmax : max (x :: xs).length ([] : List Int).length =
          (x :: xs).length := by simp
      rw [hmax, padZeros_self]
      simpa [padZeros] using cmpLeft_eq_pad (x :: xs)
    | cons y ys =>
      have hmax : max (x :: xs).length (y :: ys).length =
          max xs.length ys.length + 1 := by
        simp only [List.length_cons]; omega
      rw [hmax, padZeros_cons, padZeros_cons]
      simp only [cmpSegs, List.zip_cons_cons, pairCmp, ih, List.zip]

/-! ## Claim C6: installFiles skips, strips, writes, and returns exactly
the regular-file and symlink paths -/

theorem installFilesGo_writes_mono (e : TarEntry) (rest : List TarEntry)
    (w : FsWrite) (hw : w ∈ (installFilesGo rest).1) :
    w ∈ (installFilesGo (e :: rest)).1 := by
  simp only [installFilesGo]
  split
  · exact hw
  · split
    · exact hw
    · split <;> simp_all

theorem installFilesGo_head_writes (e : TarEntry) (rest : List TarEntry)
    (w : FsWrite) (hw : w ∈ specWritesFor e) :
    w ∈ (installFilesGo (e :: rest)).1 := by
  simp only [installFilesGo, specWritesFor] at *
  split at hw
  · simp_all
  · split at hw
    · simp_all
    · split at hw <;> simp_all
      tauto

/-- Claim C6: for every archive entry stream, extraction skips the
metadata entry and every entry under a scripts/ prefix, strips the files/
or ./files/ prefix, skips entries whose stripped name is empty or ".",
performs the prescribed filesystem writes for every surviving entry at
"/" ++ stripped name, and returns exactly the regular-file and symlink
paths written, in order (directories created but not listed). -/
theorem c6_installFiles_extraction :
    ∀ es : List TarEntry,
      (installFilesGo es).2 = specExtractedList es ∧
      (∀ e ∈ es, ∀ w ∈ specWritesFor e, w ∈ (installFilesGo es).1) := by
  intro es
  constructor
  · induction es with
    | nil => rfl
    | cons e rest ih =>
      simp only [installFilesGo, specExtractedList, List.filterMap_cons]
      split
      · simpa [specExtractedList] using ih
      · split
        · simpa [specExtractedList] using ih
        · split <;> simp_all [specExtractedList]
  · intro e he w hw
    induction es with
    | nil => cases he
    | cons f rest ih =>
      rcases List.mem_cons.mp he with h | h
      · subst h; exact installFilesGo_head_writes e rest w hw
      · exact installFilesGo_writes_mono f rest w (ih h)

/-- Witness for C6 at a concrete archive: a metadata entry, a scripts/
entry, a directory, a regular file under files/, a symlink under ./files/,
and an entry stripping to the empty name. -/
theorem c6_installFiles_extraction_witness :
    (installFilesGo
        [⟨"metadata.json", .reg, ""⟩, ⟨"scripts/post", .reg, ""⟩,
          ⟨"files/usr", .dir, ""⟩, ⟨"files/usr/bin/tool", .reg, ""⟩,
          ⟨"./files/usr/bin/alias", .symlink, "tool"⟩,
          ⟨"files/", .dir, ""⟩]).2 =
        ["/usr/bin/tool", "/usr/bin/alias"] ∧
      FsWrite.writeFile "/usr/bin/tool" ∈
        (installFilesGo
          [⟨"metadata.json", .reg, ""⟩, ⟨"scripts/post", .reg, ""⟩,
            ⟨"files/usr", .dir, ""⟩, ⟨"files/usr/bin/tool", .reg, ""⟩,
            ⟨"./files/usr/bin/alias", .symlink, "tool"⟩,
            ⟨"files/", .dir, ""⟩]).1 := by
  constructor
  · have h := (c6_installFiles_extraction
      [⟨"metadata.json", .reg, ""⟩, ⟨"scripts/post", .reg, ""⟩,
        ⟨"files/usr", .dir, ""⟩, ⟨"files/usr/bin/tool", .reg, ""⟩,
        ⟨"./files/usr/bin/alias", .symlink, "tool"⟩,
        ⟨"files/", .dir, ""⟩]).1
    rw [h]; decide
  · exact (c6_installFiles_extraction _).2
      ⟨"files/usr/bin/tool", .reg, ""⟩ (by decide)
      (FsWrite.writeFile "/usr/bin/tool") (by decide)

/-- Claim C9: compareVersions compares dotted version strings numerically,
segment by segment, with missing trailing segments treated as 0 (it agrees
with the zero-padded pointwise comparison on all inputs), and in
particular compareVersions("1.0.1","1.0.0") = 1,
compareVersions("1.0","1.0.0") = 0 and
compareVersions("1.10.0","1.9.0") = 1. -/
theorem c9_compareVersions_numeric :
    (∀ v1 v2 : String, compareVersions v1 v2 = specCompareVersions v1 v2) ∧
    compareVersions "1.0.1" "1.0.0" = 1 ∧
    compareVersions "1.0" "1.0.0" = 0 ∧
    compareVersions "1.10.0" "1.9.0" = 1 :=
  ⟨fun v1 v2 => cmpSegs_eq_pad (segsOf v1) (segsOf v2),
    by decide, by decide, by decide⟩

end Mixos
